import Mathlib

/-!
# Click counter: in-memory aggregation and periodic merge-write

A shallow embedding of `main.go`: the counter map `clicks`, the batch buffer
`clicksList`, the handler `counterHandler`, one iteration of the loop of
`recordClicks`, and the two statements `writeToDB` and `getStats` run against the
`click` table.

Conventions of the embedding.

* Go's `int` is the 64-bit two's-complement integer: `counterHandler` increments with
  wrap-around (`wrapInt`).  Runs of requests and loop iterations are stated over `step`,
  whose request increments without wrap-around; the two agree as long as the count stays
  below the largest `int`, which holds along every run from the initial state of fewer
  than `2^63 - 1` steps (`runGo_eq_run`).
* `time.Time` is represented by the number of nanoseconds since Go's zero time, and
  `Truncate` rounds down to a multiple of the duration.
* `map[int]int` is an association list with pairwise distinct keys (`AList`).  The order
  in which `range` yields the keys is unspecified in Go, so it is an input of the
  drain pass (`Shuffle`): any rearrangement of the key list.
* Each call of `time.Now()` inside one pass gets its own reading: `now k` is the
  reading of the `k`-th call of the pass.
* Whether the database executes a statement is an input (`dbOk`).  A statement that
  fails leaves the table as it was.
* A `time.Time` reaches the database with microsecond precision: the digits below a
  microsecond are cut off (`toMicro`), both in the rows written and in the bounds of a
  query.
-/

namespace ClickCounter

/-! ## Data model -/

/-- The struct `Click`: a row of the `click` table, primary key `(Timestamp, BannerID)`. -/
structure Click where
  Timestamp : Int
  BannerID : Int
  Count : Int
deriving DecidableEq

/-- The global `clicks` of type `map[int]int`. -/
abbrev CounterMap := AList (fun _ : Int => Int)

/-- The rows of the `click` table, keyed by the primary key `(timestamp, banner_id)`. -/
abbrev Table := AList (fun _ : Int × Int => Int)

/-- Reading `clicks[k]`: the stored value, or the zero value when `k` is absent. -/
def pending (m : CounterMap) (k : Int) : Int :=
  (m.lookup k).getD 0

/-- The assignment `clicks[k] = v`. -/
def assign (m : CounterMap) (k v : Int) : CounterMap :=
  m.insert k v

/-- An unspecified order: a function that rearranges any list. -/
structure Shuffle (α : Type) where
  apply : List α → List α
  perm : ∀ l, (apply l).Perm l

/-- The order that leaves a list as it is. -/
def Shuffle.same (α : Type) : Shuffle α :=
  ⟨fun l => l, fun l => List.Perm.refl l⟩

/-- The constant `time.Minute`, in nanoseconds. -/
def minute : Int := 60 * 1000000000

/-- The method `Time.Truncate`: round `t` down to a multiple of `d`; `t` itself when `d ≤ 0`. -/
def truncate (t d : Int) : Int :=
  if d ≤ 0 then t else t - t % d

/-- A time as the database driver sends it: cut down to a whole microsecond. -/
def toMicro (t : Int) : Int :=
  t - t % 1000

/-- The largest value of Go's `int`, `math.MaxInt64`. -/
def maxInt : Int := 9223372036854775807

/-- The smallest value of Go's `int`, `math.MinInt64`. -/
def minInt : Int := -9223372036854775808

/-- The value an `int` computation with exact result `x` leaves: `x` wrapped into the
64-bit two's-complement range. -/
def wrapInt (x : Int) : Int :=
  (x + 9223372036854775808) % 18446744073709551616 - 9223372036854775808

/-! ## The drain pass: the locked loop of `recordClicks` -/

/-- The variables the locked loop works on, and the number of `time.Now()` calls made. -/
structure Pass where
  clicks : CounterMap
  clicksList : List Click
  reads : Nat

/-- The body of `for bannerID, count := range clicks`. -/
def rangeBody (now : Nat → Int) (p : Pass) (bannerID : Int) : Pass :=
  let count := pending p.clicks bannerID
  if count > 0 then
    { clicks := assign p.clicks bannerID 0
      clicksList := p.clicksList ++
        [{ Timestamp := truncate (now p.reads) minute, BannerID := bannerID, Count := count }]
      reads := p.reads + 1 }
  else p

/-- The locked loop of `recordClicks`: one body run per key, in the order `range` yields. -/
def drain (order : Shuffle Int) (now : Nat → Int) (clicks : CounterMap)
    (clicksList : List Click) : Pass :=
  (order.apply clicks.keys).foldl (rangeBody now) ⟨clicks, clicksList, 0⟩

/-! ## The two statements against the `click` table -/

/-- The conflict target `(timestamp, banner_id)` of a row as it reaches the table: the
timestamp at microsecond precision, and the banner. -/
def key (c : Click) : Int × Int := (toMicro c.Timestamp, c.BannerID)

/-- One row of `INSERT ... ON CONFLICT (timestamp, banner_id) DO UPDATE
SET count = click.count + EXCLUDED.count`.  The sum is taken exactly: the program does
not fix the range of the `count` column. -/
def upsert (t : Table) (c : Click) : Table :=
  match t.lookup (key c) with
  | none => t.insert (key c) c.Count
  | some old => t.insert (key c) (old + c.Count)

/-- The method `writeToDB`: `none` stands for a returned error.  An empty list gives an
`INSERT` without a row, which the database rejects.  PostgreSQL also rejects an
`ON CONFLICT DO UPDATE` statement that would touch one row twice, so a list with a
repeated key is an error as well. -/
def writeToDB (dbOk : Bool) (t : Table) (clicksList : List Click) : Option Table :=
  if dbOk = true ∧ clicksList ≠ [] ∧ (clicksList.map key).Nodup then
    some (clicksList.foldl upsert t)
  else none

/-- The rows of the table as `Click` values. -/
def rows (t : Table) : List Click :=
  t.entries.map fun e => { Timestamp := e.1.1, BannerID := e.1.2, Count := e.2 }

/-- The method `getStats`: `WHERE banner_id = ? AND timestamp BETWEEN ? AND ?` with both
bounds sent at microsecond precision, rows in the order the scan yields them; `none`
stands for a returned error. -/
def getStats (dbOk : Bool) (scan : Shuffle Click) (t : Table) (bannerID tsFrom tsTo : Int) :
    Option (List Click) :=
  if dbOk = true then
    some ((scan.apply (rows t)).filter fun c =>
      decide (c.BannerID = bannerID ∧ toMicro tsFrom ≤ c.Timestamp ∧
        c.Timestamp ≤ toMicro tsTo))
  else none

/-! ## Program state, the handler and the loop iteration -/

/-- One call of `writeToDB` made by the loop: its argument and whether it succeeded. -/
structure GatewayCall where
  batch : List Click
  ok : Bool
deriving DecidableEq

/-- The globals `clicks` and `clicksList`, the table behind `db`, and two observation
fields: the `writeToDB` calls made so far and the number of lines logged. -/
structure State where
  clicks : CounterMap
  clicksList : List Click
  table : Table
  calls : List GatewayCall
  logged : Nat

/-- The state at start-up: an empty map, an empty buffer, an empty table. -/
def State.init : State :=
  { clicks := ∅, clicksList := [], table := ∅, calls := [], logged := 0 }

/-- The function `counterHandler`: `parsed` is what `Sscanf` made of the path; the
result is the new state and the HTTP status.  The statement `clicks[id]++` is an `int`
increment, so it wraps. -/
def counterHandler (parsed : Option Int) (s : State) : State × Nat :=
  match parsed with
  | none => (s, 400)
  | some id => ({ s with clicks := assign s.clicks id (wrapInt (pending s.clicks id + 1)) }, 200)

/-- The request `record id` below the end of the `int` range: `counterHandler` run on a
parsed id, with the increment taken without wrap-around. -/
def record (id : Int) (s : State) : State :=
  { s with clicks := assign s.clicks id (pending s.clicks id + 1) }

/-- What one loop iteration gets from outside: the order of `range`, the clock and the
database outcome. -/
structure TickEnv where
  order : Shuffle Int
  now : Nat → Int
  dbOk : Bool

/-- One iteration of the `for` loop of `recordClicks`, after the sleep. -/
def recordClicksIter (env : TickEnv) (s : State) : State :=
  let p := drain env.order env.now s.clicks s.clicksList
  if p.clicksList.length > 0 then
    match writeToDB env.dbOk s.table p.clicksList with
    | some t =>
      { clicks := p.clicks, clicksList := [], table := t,
        calls := s.calls ++ [⟨p.clicksList, true⟩], logged := s.logged }
    | none =>
      { clicks := p.clicks, clicksList := [], table := s.table,
        calls := s.calls ++ [⟨p.clicksList, false⟩], logged := s.logged + 1 }
  else
    { clicks := p.clicks, clicksList := p.clicksList, table := s.table,
      calls := s.calls, logged := s.logged }

/-- A step of the system: a request with a parsed id, or a loop iteration. -/
inductive Step where
  | record (id : Int)
  | tick (env : TickEnv)

/-- The effect of one step, a request taken below the end of the `int` range. -/
def step (s : State) : Step → State
  | .record id => record id s
  | .tick env => recordClicksIter env s

/-- The effect of a sequence of steps. -/
def run (s : State) (steps : List Step) : State :=
  steps.foldl step s

/-- The effect of one step as the program runs it: a request is `counterHandler` with its
wrapping increment. -/
def stepGo (s : State) : Step → State
  | .record id => (counterHandler (some id) s).1
  | .tick env => recordClicksIter env s

/-- The effect of a sequence of steps as the program runs them. -/
def runGo (s : State) (steps : List Step) : State :=
  steps.foldl stepGo s

/-! ## Vocabulary of the statements -/

/-- The keys a pass finds with a positive count, in the order it visits them. -/
def hot (cnt : Int → Int) (order : List Int) : List Int :=
  order.filter fun k => decide (0 < cnt k)

/-- The records a pass appends for the keys `ks`, the first of them stamped with the
clock reading number `i`. -/
def recordsFrom (now : Nat → Int) (cnt : Int → Int) : Nat → List Int → List Click
  | _, [] => []
  | i, k :: ks =>
    { Timestamp := truncate (now i) minute, BannerID := k, Count := cnt k } ::
      recordsFrom now cnt (i + 1) ks

/-- The data-model invariant of the counter map: no stored count is negative. -/
def NonNeg (m : CounterMap) : Prop :=
  ∀ x ∈ m.entries, 0 ≤ x.2

instance (m : CounterMap) : Decidable (NonNeg m) := by
  unfold NonNeg
  infer_instance

/-! ## Concrete data used in the examples -/

/-- Two banners with one pending click each. -/
def twoBanners : CounterMap :=
  assign (assign ∅ 7 1) 9 1

/-- A clock whose first reading is one nanosecond before the end of a minute (minute
number 1065000000 since the zero time) and which advances by one nanosecond per reading. -/
def edgeClock (k : Nat) : Int := 63899999999999999999 + k

/-- A clock that stands still at 125 ns. -/
def stillClock (_ : Nat) : Int := 125

/-- A table with rows for banner 7 in three consecutive minutes and one row for banner 9. -/
def sampleTable : Table :=
  (((∅ : Table).insert (0, 7) 3).insert (60000000000, 7) 2).insert (120000000000, 7) 4
    |>.insert (60000000000, 9) 5

/-! ## Vocabulary for runs -/

/-- The content of the buffer at the end of the locked loop of the next iteration: the
batch that iteration hands to `writeToDB`. -/
def tickBatch (env : TickEnv) (s : State) : List Click :=
  (drain env.order env.now s.clicks s.clicksList).clicksList

/-- The number of `record e` steps in a sequence of steps. -/
def recordCount (e : Int) : List Step → Nat
  | [] => 0
  | .record id :: rest => (if id = e then 1 else 0) + recordCount e rest
  | .tick _ :: rest => recordCount e rest

/-- The requests `record id` for the ids of a list, in order. -/
def records (ids : List Int) : List Step :=
  ids.map Step.record

/-- What holds of the globals between two steps of a run from the initial state: no
negative count, and an empty buffer. -/
def Reach (s : State) : Prop :=
  NonNeg s.clicks ∧ s.clicksList = []

/-- The state after three requests for banner 7 and one for banner 9. -/
def fourClicks : State :=
  run State.init (records [7, 7, 7, 9])

/-- A state in which banner 7 holds the largest `int`. -/
def fullCounter : State :=
  { clicks := assign ∅ 7 maxInt, clicksList := [], table := ∅, calls := [], logged := 0 }

/-! ## The counter map -/

theorem pending_assign_self (m : CounterMap) (k v : Int) : pending (assign m k v) k = v := by
  simp [pending, assign]

theorem pending_assign_of_ne (m : CounterMap) {k e : Int} (v : Int) (h : e ≠ k) :
    pending (assign m k v) e = pending m e := by
  simp [pending, assign, AList.lookup_insert_ne h]

theorem mem_assign (m : CounterMap) (k v e : Int) : e ∈ assign m k v ↔ e = k ∨ e ∈ m := by
  simp [assign]

theorem mem_of_pending_ne_zero {m : CounterMap} {k : Int} (h : pending m k ≠ 0) : k ∈ m := by
  by_contra hk
  exact h (by simp [pending, AList.lookup_eq_none.mpr hk])

/-! ## The drain pass -/

theorem rangeBody_pending (now : Nat → Int) (p : Pass) (k e : Int) :
    pending (rangeBody now p k).clicks e =
      if e = k ∧ 0 < pending p.clicks e then 0 else pending p.clicks e := by
  unfold rangeBody
  by_cases hk : 0 < pending p.clicks k
  · by_cases he : e = k
    · subst he
      simp [hk, pending_assign_self]
    · simp [hk, he, pending_assign_of_ne]
  · by_cases he : e = k
    · subst he
      simp [hk]
    · simp [hk, he]

theorem foldl_rangeBody_pending (now : Nat → Int) (ks : List Int) (p : Pass) (e : Int) :
    pending (ks.foldl (rangeBody now) p).clicks e =
      if e ∈ ks ∧ 0 < pending p.clicks e then 0 else pending p.clicks e := by
  induction ks generalizing p with
  | nil => simp
  | cons k ks ih =>
    rw [List.foldl_cons, ih, rangeBody_pending]
    by_cases he : e = k
    · subst he
      by_cases hp : 0 < pending p.clicks e
      · simp [hp]
      · simp [hp]
    · by_cases hp : 0 < pending p.clicks e <;> simp [he, hp]

theorem recordsFrom_congr (now : Nat → Int) {f g : Int → Int} (ks : List Int) (i : Nat)
    (h : ∀ k ∈ ks, f k = g k) : recordsFrom now f i ks = recordsFrom now g i ks := by
  induction ks generalizing i with
  | nil => rfl
  | cons k ks ih =>
    simp only [recordsFrom]
    rw [h k (List.mem_cons_self k ks), ih (i + 1) fun x hx => h x (List.mem_cons_of_mem k hx)]

theorem hot_congr {f g : Int → Int} (ks : List Int) (h : ∀ k ∈ ks, f k = g k) :
    hot f ks = hot g ks := by
  unfold hot
  apply List.filter_congr
  intro k hk
  rw [h k hk]

theorem mem_hot {cnt : Int → Int} {ks : List Int} {k : Int} :
    k ∈ hot cnt ks ↔ k ∈ ks ∧ 0 < cnt k := by
  simp [hot]

theorem foldl_rangeBody_clicksList (now : Nat → Int) (ks : List Int) (hks : ks.Nodup) (p : Pass) :
    (ks.foldl (rangeBody now) p).clicksList =
      p.clicksList ++ recordsFrom now (pending p.clicks) p.reads (hot (pending p.clicks) ks) := by
  induction ks generalizing p with
  | nil => simp [hot, recordsFrom]
  | cons k ks ih =>
    have hk : k ∉ ks := (List.nodup_cons.mp hks).1
    have hagree : ∀ x ∈ ks, pending (rangeBody now p k).clicks x = pending p.clicks x := by
      intro x hx
      rw [rangeBody_pending]
      have : x ≠ k := fun h => hk (h ▸ hx)
      simp [this]
    rw [List.foldl_cons, ih (List.nodup_cons.mp hks).2, hot_congr ks hagree,
      recordsFrom_congr now _ _ fun x hx => hagree x (mem_hot.mp hx).1]
    by_cases hp : 0 < pending p.clicks k
    · have h1 : hot (pending p.clicks) (k :: ks) = k :: hot (pending p.clicks) ks := by
        simp [hot, hp]
      rw [h1]
      simp [rangeBody, hp, recordsFrom]
    · have h1 : hot (pending p.clicks) (k :: ks) = hot (pending p.clicks) ks := by
        simp [hot, hp]
      rw [h1]
      simp [rangeBody, hp]

theorem recordsFrom_ids (now : Nat → Int) (cnt : Int → Int) (i : Nat) (ks : List Int) :
    (recordsFrom now cnt i ks).map Click.BannerID = ks := by
  induction ks generalizing i with
  | nil => rfl
  | cons k ks ih => simp [recordsFrom, ih]

theorem recordsFrom_length (now : Nat → Int) (cnt : Int → Int) (i : Nat) (ks : List Int) :
    (recordsFrom now cnt i ks).length = ks.length := by
  rw [← List.length_map (recordsFrom now cnt i ks) Click.BannerID, recordsFrom_ids]

theorem recordsFrom_get (now : Nat → Int) (cnt : Int → Int) (i : Nat) (ks : List Int) (j : Nat)
    (c : Click) (h : (recordsFrom now cnt i ks)[j]? = some c) :
    c.Timestamp = truncate (now (i + j)) minute := by
  induction ks generalizing i j with
  | nil => simp [recordsFrom] at h
  | cons k ks ih =>
    cases j with
    | zero =>
      simp only [recordsFrom, List.getElem?_cons_zero, Option.some.injEq] at h
      subst h
      rfl
    | succ j =>
      simp only [recordsFrom, List.getElem?_cons_succ] at h
      have := ih (i + 1) j h
      rw [this]
      congr 2
      omega

theorem drain_clicksList (order : Shuffle Int) (now : Nat → Int) (m : CounterMap)
    (buf : List Click) :
    (drain order now m buf).clicksList =
      buf ++ recordsFrom now (pending m) 0 (hot (pending m) (order.apply m.keys)) := by
  unfold drain
  rw [foldl_rangeBody_clicksList now _ ((order.perm m.keys).nodup_iff.mpr m.keys_nodup)]

theorem mem_order (order : Shuffle Int) (m : CounterMap) (e : Int) :
    e ∈ order.apply m.keys ↔ e ∈ m := by
  rw [(order.perm m.keys).mem_iff, AList.mem_keys]

theorem mem_hot_drain (order : Shuffle Int) (m : CounterMap) (e : Int) :
    e ∈ hot (pending m) (order.apply m.keys) ↔ 0 < pending m e := by
  rw [mem_hot, mem_order]
  exact ⟨fun h => h.2, fun h => ⟨mem_of_pending_ne_zero (ne_of_gt h), h⟩⟩

theorem drain_pending (order : Shuffle Int) (now : Nat → Int) (m : CounterMap)
    (buf : List Click) (e : Int) :
    pending (drain order now m buf).clicks e = if 0 < pending m e then 0 else pending m e := by
  unfold drain
  rw [foldl_rangeBody_pending]
  by_cases hp : 0 < pending m e
  · have : e ∈ order.apply m.keys := (mem_order order m e).mpr (mem_of_pending_ne_zero (ne_of_gt hp))
    simp [hp, this]
  · simp [hp]

theorem nonNeg_iff (m : CounterMap) : NonNeg m ↔ ∀ e, 0 ≤ pending m e := by
  constructor
  · intro h e
    unfold pending
    cases hl : m.lookup e with
    | none => simp
    | some v =>
      have hmem : (⟨e, v⟩ : Sigma fun _ : Int => Int) ∈ m.entries := by
        have := AList.mem_lookup_iff.mp (Option.mem_def.mpr hl)
        exact this
      simpa using h _ hmem
  · intro h x hx
    have hl : m.lookup x.1 = some x.2 := by
      have : x.2 ∈ m.lookup x.1 := AList.mem_lookup_iff.mpr hx
      exact Option.mem_def.mp this
    have := h x.1
    simpa [pending, hl] using this

theorem truncate_minute_eq (t : Int) : truncate t minute = minute * (t / minute) := by
  have h := Int.ediv_add_emod t minute
  have hm : ¬ minute ≤ 0 := by decide
  simp only [truncate, hm, if_false]
  omega

theorem truncate_minute_le (t : Int) : truncate t minute ≤ t := by
  have h := Int.emod_nonneg t (show minute ≠ 0 by decide)
  have hm : ¬ minute ≤ 0 := by decide
  simp only [truncate, hm, if_false]
  omega

theorem lt_truncate_minute_add (t : Int) : t < truncate t minute + minute := by
  have h := Int.emod_lt_of_pos t (show 0 < minute by decide)
  have hm : ¬ minute ≤ 0 := by decide
  simp only [truncate, hm, if_false]
  omega

theorem wrapInt_of_inRange (x : Int) (hlo : minInt ≤ x) (hhi : x ≤ maxInt) : wrapInt x = x := by
  unfold minInt at hlo
  unfold maxInt at hhi
  unfold wrapInt
  omega

theorem toMicro_le (x : Int) : toMicro x ≤ x := by
  unfold toMicro
  omega

theorem le_toMicro {a x : Int} (ha : toMicro a = a) (h : a ≤ x) : a ≤ toMicro x := by
  unfold toMicro at ha ⊢
  omega

theorem toMicro_truncate_minute (t : Int) : toMicro (truncate t minute) = truncate t minute := by
  rw [truncate_minute_eq]
  unfold toMicro minute
  omega

/-- The key of a record stamped with a minute bucket is the bucket and the banner. -/
theorem key_of_bucket (c : Click) (x : Int) (h : c.Timestamp = truncate x minute) :
    key c = (c.Timestamp, c.BannerID) := by
  unfold key
  rw [h, toMicro_truncate_minute]

/-! ## Claims about a single pass and a single request -/

/-- C4, as stated, fails: at the largest `int` the increment of `counterHandler` wraps to
the smallest `int` instead of giving the old value plus one. -/
theorem counterHandler_wraps :
    pending fullCounter.clicks 7 = 9223372036854775807 ∧
    pending (counterHandler (some 7) fullCounter).1.clicks 7 = -9223372036854775808 ∧
    pending (counterHandler (some 7) fullCounter).1.clicks 7 ≠
      pending fullCounter.clicks 7 + 1 := by
  decide

/-- C4, amended: a request with a parsed id answers 200; when the count of that id is an
`int` below the largest one it is raised by one, an absent id counting as zero and being
created, and at the largest `int` it wraps to the smallest; no other count and no other
key changes, and the buffer, the table and the observation fields stay as they were. -/
theorem counterHandler_frame (s : State) (id : Int) :
    (counterHandler (some id) s).2 = 200 ∧
    (minInt ≤ pending s.clicks id → pending s.clicks id < maxInt →
      pending (counterHandler (some id) s).1.clicks id = pending s.clicks id + 1) ∧
    (pending s.clicks id = maxInt →
      pending (counterHandler (some id) s).1.clicks id = minInt) ∧
    (id ∉ s.clicks → pending s.clicks id = 0 ∧
      pending (counterHandler (some id) s).1.clicks id = 1) ∧
    id ∈ (counterHandler (some id) s).1.clicks ∧
    (∀ e, e ≠ id →
      pending (counterHandler (some id) s).1.clicks e = pending s.clicks e ∧
      (e ∈ (counterHandler (some id) s).1.clicks ↔ e ∈ s.clicks)) ∧
    (counterHandler (some id) s).1.clicksList = s.clicksList ∧
    (counterHandler (some id) s).1.table = s.table ∧
    (counterHandler (some id) s).1.calls = s.calls ∧
    (counterHandler (some id) s).1.logged = s.logged := by
  have hnew : pending (counterHandler (some id) s).1.clicks id =
      wrapInt (pending s.clicks id + 1) := by
    simp [counterHandler, pending_assign_self]
  refine ⟨rfl, ?_, ?_, ?_, ?_, ?_, rfl, rfl, rfl, rfl⟩
  · intro hlo hhi
    rw [hnew]
    exact wrapInt_of_inRange _ (by omega) (by omega)
  · intro hmax
    rw [hnew, hmax]
    decide
  · intro h
    have h0 : pending s.clicks id = 0 := by
      by_contra hne
      exact h (mem_of_pending_ne_zero hne)
    refine ⟨h0, ?_⟩
    rw [hnew, h0]
    decide
  · simp [counterHandler, mem_assign]
  · intro e he
    simp [counterHandler, pending_assign_of_ne _ _ he, mem_assign, he]

theorem counterHandler_frame_witness :
    minInt ≤ pending fourClicks.clicks 7 ∧ pending fourClicks.clicks 7 < maxInt ∧
    pending (counterHandler (some 7) fourClicks).1.clicks 7 = pending fourClicks.clicks 7 + 1 ∧
    (5 : Int) ∉ fourClicks.clicks ∧
    pending (counterHandler (some 5) fourClicks).1.clicks 5 = 1 ∧
    pending (counterHandler (some 7) fourClicks).1.clicks 9 = pending fourClicks.clicks 9 :=
  ⟨by decide, by decide,
   (counterHandler_frame fourClicks 7).2.1 (by decide) (by decide),
   by decide,
   ((counterHandler_frame fourClicks 5).2.2.2.1 (by decide)).2,
   ((counterHandler_frame fourClicks 7).2.2.2.2.2.1 9 (by decide)).1⟩

/-- C10, as stated, fails: with two banners pending and a non-decreasing clock that
passes a minute boundary between the two appends, one pass yields records in two
different buckets. -/
theorem drain_two_buckets :
    Monotone edgeClock ∧
    (drain (Shuffle.same Int) edgeClock twoBanners []).clicksList =
      [⟨63899999940000000000, 9, 1⟩, ⟨63900000000000000000, 7, 1⟩] ∧
    ¬ ∃ bucket, ∀ c ∈ (drain (Shuffle.same Int) edgeClock twoBanners []).clicksList,
        c.Timestamp = bucket := by
  refine ⟨?_, by decide, ?_⟩
  · intro a b hab
    simp only [edgeClock]
    have : (a : Int) ≤ b := Int.ofNat_le.mpr hab
    omega
  · rintro ⟨bucket, h⟩
    have h1 := h ⟨63899999940000000000, 9, 1⟩ (by decide)
    have h2 := h ⟨63900000000000000000, 7, 1⟩ (by decide)
    simp only at h1 h2
    omega

/-- C10, amended: the record appended at position `j` of a pass carries the `j`-th clock
reading of the pass truncated to the minute, which is a whole multiple of one minute, at
most that reading and less than one minute before it; when all readings taken for the
batch truncate to one bucket, every record of the batch carries that bucket. -/
theorem drain_bucket_per_record (order : Shuffle Int) (now : Nat → Int) (m : CounterMap) :
    (∀ j c, (drain order now m []).clicksList[j]? = some c →
      c.Timestamp = truncate (now j) minute ∧ minute ∣ c.Timestamp ∧
      c.Timestamp ≤ now j ∧ now j < c.Timestamp + minute) ∧
    (∀ bucket, (∀ j, j < (drain order now m []).clicksList.length →
        truncate (now j) minute = bucket) →
      ∀ c ∈ (drain order now m []).clicksList, c.Timestamp = bucket) := by
  have hstamp : ∀ j c, (drain order now m []).clicksList[j]? = some c →
      c.Timestamp = truncate (now j) minute := by
    intro j c h
    rw [drain_clicksList, List.nil_append] at h
    simpa using recordsFrom_get now _ 0 _ j c h
  refine ⟨?_, ?_⟩
  · intro j c h
    rw [hstamp j c h]
    exact ⟨rfl, ⟨_, truncate_minute_eq _⟩, truncate_minute_le _, lt_truncate_minute_add _⟩
  · intro bucket hb c hc
    obtain ⟨j, hj, hget⟩ := List.getElem_of_mem hc
    have h := hstamp j c (by rw [List.getElem?_eq_getElem hj, hget])
    rw [h, hb j hj]

theorem drain_bucket_per_record_witness :
    (drain (Shuffle.same Int) edgeClock twoBanners []).clicksList[1]? =
      some ⟨63900000000000000000, 7, 1⟩ ∧
    (63900000000000000000 : Int) = truncate (edgeClock 1) minute ∧
    ∀ c ∈ (drain (Shuffle.same Int) stillClock twoBanners []).clicksList, c.Timestamp = 0 :=
  ⟨by decide,
   ((drain_bucket_per_record (Shuffle.same Int) edgeClock twoBanners).1 1 ⟨63900000000000000000, 7, 1⟩
      (by decide)).1,
   (drain_bucket_per_record (Shuffle.same Int) stillClock twoBanners).2 0
      (fun _ _ => (by decide : truncate 125 minute = 0))⟩

/-! ## The table -/

theorem upsert_lookup_self (t : Table) (c : Click) :
    (upsert t c).lookup (key c) =
      some (match t.lookup (key c) with
        | none => c.Count
        | some old => old + c.Count) := by
  unfold upsert
  cases t.lookup (key c) <;> simp

theorem upsert_lookup_of_ne (t : Table) (c : Click) {k : Int × Int} (h : k ≠ key c) :
    (upsert t c).lookup k = t.lookup k := by
  unfold upsert
  cases t.lookup (key c) <;> simp [AList.lookup_insert_ne h]

theorem foldl_upsert_lookup_of_not_mem (batch : List Click) (t : Table) {k : Int × Int}
    (h : k ∉ batch.map key) : (batch.foldl upsert t).lookup k = t.lookup k := by
  induction batch generalizing t with
  | nil => rfl
  | cons c cs ih =>
    simp only [List.map_cons, List.mem_cons, not_or] at h
    rw [List.foldl_cons, ih _ h.2, upsert_lookup_of_ne t c h.1]

theorem foldl_upsert_lookup_of_mem (batch : List Click) (t : Table)
    (hkeys : (batch.map key).Nodup) {c : Click} (hc : c ∈ batch) :
    (batch.foldl upsert t).lookup (key c) =
      some (match t.lookup (key c) with
        | none => c.Count
        | some old => old + c.Count) := by
  induction batch generalizing t with
  | nil => simp at hc
  | cons d ds ih =>
    simp only [List.map_cons, List.nodup_cons] at hkeys
    rw [List.foldl_cons]
    rcases List.mem_cons.mp hc with rfl | hmem
    · rw [foldl_upsert_lookup_of_not_mem ds _ hkeys.1, upsert_lookup_self]
    · have hne : key c ≠ key d := by
        intro h
        exact hkeys.1 (h ▸ List.mem_map_of_mem key hmem)
      rw [ih _ hkeys.2 hmem, upsert_lookup_of_ne t d hne]

theorem writeToDB_of_nodup (t : Table) (batch : List Click) (hne : batch ≠ [])
    (hkeys : (batch.map key).Nodup) : writeToDB true t batch = some (batch.foldl upsert t) := by
  simp [writeToDB, hne, hkeys]

theorem writeToDB_down (t : Table) (batch : List Click) : writeToDB false t batch = none := by
  simp [writeToDB]

theorem mem_rows (t : Table) (c : Click) :
    c ∈ rows t ↔ t.lookup (c.Timestamp, c.BannerID) = some c.Count := by
  unfold rows
  rw [List.mem_map]
  constructor
  · rintro ⟨x, hx, rfl⟩
    have : x.2 ∈ t.lookup x.1 := AList.mem_lookup_iff.mpr hx
    exact Option.mem_def.mp this
  · intro h
    have hmem : (⟨(c.Timestamp, c.BannerID), c.Count⟩ : Sigma fun _ : Int × Int => Int) ∈
        t.entries := AList.mem_lookup_iff.mp (Option.mem_def.mpr h)
    exact ⟨_, hmem, rfl⟩

theorem rows_nodup (t : Table) : (rows t).Nodup := by
  unfold rows
  refine List.Nodup.map ?_ t.nodupKeys.nodup
  intro x y h
  obtain ⟨⟨a, b⟩, v⟩ := x
  obtain ⟨⟨a', b'⟩, v'⟩ := y
  simp only [Click.mk.injEq] at h
  obtain ⟨rfl, rfl, rfl⟩ := h
  rfl

/-- C7, as stated, fails: a batch that repeats a key is rejected as a whole, and no table
could hold, under the repeated key, both incoming counts the statement of the claim asks
for. -/
theorem writeToDB_repeated_key :
    writeToDB true ∅ [⟨60000000000, 7, 5⟩, ⟨60000000000, 7, 3⟩] = none ∧
    ¬ ∃ t' : Table, ∀ c ∈ [(⟨60000000000, 7, 5⟩ : Click), ⟨60000000000, 7, 3⟩],
        t'.lookup (c.Timestamp, c.BannerID) = some c.Count := by
  refine ⟨by decide, ?_⟩
  rintro ⟨t', h⟩
  have h1 := h ⟨60000000000, 7, 5⟩ (by decide)
  have h2 := h ⟨60000000000, 7, 3⟩ (by decide)
  simp only at h1 h2
  rw [h1] at h2
  exact absurd h2 (by decide)

/-- C7, amended: a merge-write of a non-empty batch with pairwise distinct keys that the
database executes succeeds and leaves, for each record of the batch, a row under its key
whose count is the incoming count when no row existed and the existing count plus the
incoming count when one did; rows under other keys are untouched.  The key of a record
stamped with a minute bucket is that bucket and the banner.  Writing `(t, e, 5)` and
then `(t, e, 3)` where no row existed leaves count 8.  An empty batch is an error. -/
theorem writeToDB_merges (t : Table) (batch : List Click) (hne : batch ≠ [])
    (hkeys : (batch.map key).Nodup) :
    (∃ t', writeToDB true t batch = some t' ∧
      (∀ c ∈ batch, t'.lookup (key c) =
        some (match t.lookup (key c) with
          | none => c.Count
          | some old => old + c.Count)) ∧
      (∀ k, k ∉ batch.map key → t'.lookup k = t.lookup k)) ∧
    (∀ c : Click, ∀ x, c.Timestamp = truncate x minute → key c = (c.Timestamp, c.BannerID)) ∧
    (∀ ts e, t.lookup (toMicro ts, e) = none →
      ∃ t1 t2, writeToDB true t [⟨ts, e, 5⟩] = some t1 ∧
        writeToDB true t1 [⟨ts, e, 3⟩] = some t2 ∧ t2.lookup (toMicro ts, e) = some 8) ∧
    writeToDB true t [] = none := by
  refine ⟨⟨batch.foldl upsert t, writeToDB_of_nodup t batch hne hkeys, ?_, ?_⟩,
    key_of_bucket, ?_, by simp [writeToDB]⟩
  · intro c hc
    exact foldl_upsert_lookup_of_mem batch t hkeys hc
  · intro k hk
    exact foldl_upsert_lookup_of_not_mem batch t hk
  · intro ts e hnone
    refine ⟨upsert t ⟨ts, e, 5⟩, upsert (upsert t ⟨ts, e, 5⟩) ⟨ts, e, 3⟩, ?_, ?_, ?_⟩
    · simp [writeToDB]
    · simp [writeToDB]
    · have h1 := upsert_lookup_self t ⟨ts, e, 5⟩
      have h2 := upsert_lookup_self (upsert t ⟨ts, e, 5⟩) ⟨ts, e, 3⟩
      simp only [key] at h1 h2
      rw [hnone] at h1
      rw [h2, h1]
      rfl

theorem writeToDB_merges_witness :
    [(⟨0, 7, 3⟩ : Click), ⟨0, 9, 1⟩] ≠ [] ∧
    ([(⟨0, 7, 3⟩ : Click), ⟨0, 9, 1⟩].map key).Nodup ∧
    (∃ t', writeToDB true sampleTable [⟨0, 7, 3⟩, ⟨0, 9, 1⟩] = some t' ∧
      t'.lookup (0, 7) = some 6 ∧ t'.lookup (0, 9) = some 1 ∧
      t'.lookup (60000000000, 9) = some 5) ∧
    (∃ t1 t2, writeToDB true sampleTable [⟨180000000000, 7, 5⟩] = some t1 ∧
      writeToDB true t1 [⟨180000000000, 7, 3⟩] = some t2 ∧
      t2.lookup (toMicro 180000000000, 7) = some 8) := by
  have h := writeToDB_merges sampleTable [⟨0, 7, 3⟩, ⟨0, 9, 1⟩] (by decide) (by decide)
  obtain ⟨⟨t', hw, hin, hout⟩, _, hacc, _⟩ := h
  refine ⟨by decide, by decide, ⟨t', hw, ?_, ?_, ?_⟩, hacc 180000000000 7 (by decide)⟩
  · exact hin ⟨0, 7, 3⟩ (by decide)
  · exact hin ⟨0, 9, 1⟩ (by decide)
  · exact hout (60000000000, 9) (by decide)

/-- C8, as stated, fails: a lower bound one nanosecond after a stored timestamp is sent
as that timestamp, so the row before the bound is returned. -/
theorem getStats_below_bound :
    getStats true (Shuffle.same Click) sampleTable 7 60000000001 120000000000 =
      some [⟨120000000000, 7, 4⟩, ⟨60000000000, 7, 2⟩] ∧
    (⟨60000000000, 7, 2⟩ : Click) ∈ rows sampleTable ∧
    ¬ ((60000000001 : Int) ≤ (⟨60000000000, 7, 2⟩ : Click).Timestamp) := by
  decide

/-- C8, amended: a range query that the database executes returns, whatever the scan
order, each stored row of the given banner whose timestamp lies between the two bounds
cut down to whole microseconds, both included, exactly once and nothing else; it is
empty when no row matches.  For a row whose timestamp is a whole microsecond the upper
bound is the bound as given, and when the lower bound is a whole microsecond the rows
returned are those between the bounds as given.  With rows of one banner at
`t1 < t2 < t3`, `t1` and `t2` whole microseconds, the query from `t1` to `t2` returns
the rows at `t1` and `t2` and not the row at `t3`. -/
theorem getStats_range (scan : Shuffle Click) (t : Table) (e tsFrom tsTo : Int) :
    ∃ res, getStats true scan t e tsFrom tsTo = some res ∧
      (∀ c, c ∈ res ↔
        (t.lookup (c.Timestamp, c.BannerID) = some c.Count ∧ c.BannerID = e ∧
          toMicro tsFrom ≤ c.Timestamp ∧ c.Timestamp ≤ toMicro tsTo)) ∧
      res.Nodup ∧
      ((∀ c ∈ rows t, ¬ (c.BannerID = e ∧ toMicro tsFrom ≤ c.Timestamp ∧
          c.Timestamp ≤ toMicro tsTo)) → res = []) ∧
      (∀ c, toMicro c.Timestamp = c.Timestamp →
        (c ∈ res ↔
          (t.lookup (c.Timestamp, c.BannerID) = some c.Count ∧ c.BannerID = e ∧
            toMicro tsFrom ≤ c.Timestamp ∧ c.Timestamp ≤ tsTo))) ∧
      (toMicro tsFrom = tsFrom → ∀ c, toMicro c.Timestamp = c.Timestamp →
        (c ∈ res ↔
          (t.lookup (c.Timestamp, c.BannerID) = some c.Count ∧ c.BannerID = e ∧
            tsFrom ≤ c.Timestamp ∧ c.Timestamp ≤ tsTo))) ∧
      (∀ t3 c1 c2 c3, toMicro tsFrom = tsFrom → toMicro tsTo = tsTo →
        tsFrom < tsTo → tsTo < t3 →
        t.lookup (tsFrom, e) = some c1 → t.lookup (tsTo, e) = some c2 →
        t.lookup (t3, e) = some c3 →
        (⟨tsFrom, e, c1⟩ : Click) ∈ res ∧ (⟨tsTo, e, c2⟩ : Click) ∈ res ∧
        (⟨t3, e, c3⟩ : Click) ∉ res) := by
  have hmem : ∀ c, c ∈ (scan.apply (rows t)).filter (fun c =>
        decide (c.BannerID = e ∧ toMicro tsFrom ≤ c.Timestamp ∧
          c.Timestamp ≤ toMicro tsTo)) ↔
      (t.lookup (c.Timestamp, c.BannerID) = some c.Count ∧ c.BannerID = e ∧
        toMicro tsFrom ≤ c.Timestamp ∧ c.Timestamp ≤ toMicro tsTo) := by
    intro c
    rw [List.mem_filter, (scan.perm (rows t)).mem_iff, mem_rows]
    simp
  have hupper : ∀ c : Click, toMicro c.Timestamp = c.Timestamp →
      (c.Timestamp ≤ toMicro tsTo ↔ c.Timestamp ≤ tsTo) := fun c hc =>
    ⟨fun h => le_trans h (toMicro_le tsTo), fun h => le_toMicro hc h⟩
  refine ⟨_, by simp [getStats], hmem, ?_, ?_, ?_, ?_, ?_⟩
  · exact List.Nodup.filter _ ((scan.perm (rows t)).nodup_iff.mpr (rows_nodup t))
  · intro hnone
    rw [List.filter_eq_nil_iff]
    intro c hc
    have := hnone c ((scan.perm (rows t)).mem_iff.mp hc)
    simpa using this
  · intro c hc
    rw [hmem, hupper c hc]
  · intro hfrom c hc
    rw [hmem, hupper c hc, hfrom]
  · intro t3 c1 c2 c3 hfrom hto h12 h23 h1 h2 h3
    refine ⟨(hmem _).mpr ⟨h1, rfl, ?_, ?_⟩, (hmem _).mpr ⟨h2, rfl, ?_, ?_⟩, ?_⟩
    · rw [hfrom]
    · rw [hto]
      exact le_of_lt h12
    · rw [hfrom]
      exact le_of_lt h12
    · rw [hto]
    · intro hin
      have := ((hmem _).mp hin).2.2.2
      rw [hto] at this
      simp only at this
      omega

theorem getStats_range_witness :
    getStats true (Shuffle.same Click) sampleTable 7 0 60000000000 =
      some [⟨60000000000, 7, 2⟩, ⟨0, 7, 3⟩] ∧
    toMicro 0 = 0 ∧ toMicro 60000000000 = 60000000000 ∧
    (⟨0, 7, 3⟩ : Click) ∈ [(⟨60000000000, 7, 2⟩ : Click), ⟨0, 7, 3⟩] ∧
    (⟨120000000000, 7, 4⟩ : Click) ∉ [(⟨60000000000, 7, 2⟩ : Click), ⟨0, 7, 3⟩] := by
  obtain ⟨res, hres, _, _, _, _, _, h3⟩ :=
    getStats_range (Shuffle.same Click) sampleTable 7 0 60000000000
  have hval : getStats true (Shuffle.same Click) sampleTable 7 0 60000000000 =
      some [⟨60000000000, 7, 2⟩, ⟨0, 7, 3⟩] := by decide
  have hr : res = [⟨60000000000, 7, 2⟩, ⟨0, 7, 3⟩] := by
    rw [hres] at hval
    exact Option.some.inj hval
  subst hr
  have h := h3 120000000000 3 2 4 (by decide) (by decide) (by decide) (by decide)
    (by decide) (by decide) (by decide)
  exact ⟨hval, by decide, by decide, h.1, h.2.2⟩

/-! ## One loop iteration -/

theorem iter_clicks (env : TickEnv) (s : State) :
    (recordClicksIter env s).clicks = (drain env.order env.now s.clicks s.clicksList).clicks := by
  unfold recordClicksIter
  dsimp only
  split
  · split <;> rfl
  · rfl

theorem iter_clicksList (env : TickEnv) (s : State) : (recordClicksIter env s).clicksList = [] := by
  unfold recordClicksIter
  dsimp only
  split
  · split <;> rfl
  · rename_i h
    simpa using h

theorem iter_calls (env : TickEnv) (s : State) :
    (recordClicksIter env s).calls =
      if tickBatch env s = [] then s.calls
      else s.calls ++ [⟨tickBatch env s, (writeToDB env.dbOk s.table (tickBatch env s)).isSome⟩] := by
  unfold recordClicksIter tickBatch
  dsimp only
  by_cases h : (drain env.order env.now s.clicks s.clicksList).clicksList = []
  · simp [h]
  · have hpos : (drain env.order env.now s.clicks s.clicksList).clicksList.length > 0 :=
      List.length_pos.mpr h
    rw [if_pos hpos, if_neg h]
    cases writeToDB env.dbOk s.table (drain env.order env.now s.clicks s.clicksList).clicksList <;> rfl

theorem iter_table (env : TickEnv) (s : State) :
    (recordClicksIter env s).table =
      if tickBatch env s = [] then s.table
      else (writeToDB env.dbOk s.table (tickBatch env s)).getD s.table := by
  unfold recordClicksIter tickBatch
  dsimp only
  by_cases h : (drain env.order env.now s.clicks s.clicksList).clicksList = []
  · simp [h]
  · have hpos : (drain env.order env.now s.clicks s.clicksList).clicksList.length > 0 :=
      List.length_pos.mpr h
    rw [if_pos hpos, if_neg h]
    cases writeToDB env.dbOk s.table (drain env.order env.now s.clicks s.clicksList).clicksList <;> rfl

theorem iter_pending (env : TickEnv) (s : State) (e : Int) :
    pending (recordClicksIter env s).clicks e =
      if 0 < pending s.clicks e then 0 else pending s.clicks e := by
  rw [iter_clicks, drain_pending]

/-- A second pass right after a pass finds nothing to drain. -/
theorem tickBatch_after_iter (env0 env : TickEnv) (s : State) :
    tickBatch env (recordClicksIter env0 s) = [] := by
  unfold tickBatch
  rw [iter_clicksList, drain_clicksList, List.nil_append]
  have hhot : hot (pending (recordClicksIter env0 s).clicks)
      (env.order.apply (recordClicksIter env0 s).clicks.keys) = [] := by
    rw [List.eq_nil_iff_forall_not_mem]
    intro k hk
    have hpos := (mem_hot_drain env.order _ k).mp hk
    rw [iter_pending] at hpos
    split_ifs at hpos with h
    · omega
    · exact h hpos
  rw [hhot]
  rfl

/-! ## Runs -/

theorem nonNeg_assign (m : CounterMap) (k v : Int) (hm : NonNeg m) (hv : 0 ≤ v) :
    NonNeg (assign m k v) := by
  rw [nonNeg_iff] at hm ⊢
  intro e
  by_cases h : e = k
  · subst h
    rw [pending_assign_self]
    exact hv
  · rw [pending_assign_of_ne _ _ h]
    exact hm e

theorem reach_init : Reach State.init :=
  ⟨by decide, rfl⟩

theorem reach_step (s : State) (x : Step) (h : Reach s) : Reach (step s x) := by
  cases x with
  | record id =>
    refine ⟨?_, h.2⟩
    exact nonNeg_assign _ _ _ h.1 (by have := (nonNeg_iff _).mp h.1 id; omega)
  | tick env =>
    refine ⟨?_, iter_clicksList env s⟩
    rw [nonNeg_iff]
    intro e
    show 0 ≤ pending (recordClicksIter env s).clicks e
    rw [iter_pending]
    have := (nonNeg_iff _).mp h.1 e
    split_ifs <;> omega

theorem reach_run (s : State) (steps : List Step) (h : Reach s) : Reach (run s steps) := by
  induction steps generalizing s with
  | nil => exact h
  | cons x xs ih => exact ih (step s x) (reach_step s x h)

theorem run_cons (s : State) (x : Step) (xs : List Step) :
    run s (x :: xs) = run (step s x) xs := rfl

theorem recordCount_append (e : Int) (xs ys : List Step) :
    recordCount e (xs ++ ys) = recordCount e xs + recordCount e ys := by
  induction xs with
  | nil => simp [recordCount]
  | cons x xs ih =>
    cases x with
    | record id => simp [recordCount, ih, Nat.add_assoc]
    | tick env => simp [recordCount, ih]

theorem step_record_pending (s : State) (id e : Int) :
    pending (step s (.record id)).clicks e = pending s.clicks e + if id = e then 1 else 0 := by
  by_cases h : id = e
  · subst h
    simp [step, record, pending_assign_self]
  · have h' : e ≠ id := fun x => h x.symm
    simp [step, record, pending_assign_of_ne _ _ h', h]

/-- Below the largest `int` the request of `step` is the handler of the program. -/
theorem record_eq_counterHandler (s : State) (id : Int) (hlo : minInt ≤ pending s.clicks id)
    (hhi : pending s.clicks id < maxInt) : record id s = (counterHandler (some id) s).1 := by
  have hw : wrapInt (pending s.clicks id + 1) = pending s.clicks id + 1 := by
    unfold minInt at hlo
    unfold maxInt at hhi
    exact wrapInt_of_inRange _ (by unfold minInt; omega) (by unfold maxInt; omega)
  simp [record, counterHandler, hw]

theorem runGo_eq_run_of_bound (steps : List Step) (s : State) (n : Nat)
    (hs : ∀ e, 0 ≤ pending s.clicks e ∧ pending s.clicks e ≤ n)
    (hn : ((n + steps.length : Nat) : Int) < maxInt) : runGo s steps = run s steps := by
  induction steps generalizing s n with
  | nil => rfl
  | cons x xs ih =>
    have hlen : (x :: xs).length = xs.length + 1 := rfl
    rw [hlen] at hn
    have hstep : stepGo s x = step s x := by
      cases x with
      | record id =>
        have := hs id
        exact (record_eq_counterHandler s id (by unfold minInt; omega) (by omega)).symm
      | tick env => rfl
    have hgo : runGo s (x :: xs) = runGo (stepGo s x) xs := rfl
    rw [hgo, hstep, run_cons]
    apply ih (step s x) (n + 1)
    · intro e
      have := hs e
      cases x with
      | record id =>
        rw [step_record_pending]
        push_cast
        split_ifs <;> omega
      | tick env =>
        have hp : pending (step s (.tick env)).clicks e =
            if 0 < pending s.clicks e then 0 else pending s.clicks e := iter_pending env s e
        rw [hp]
        push_cast
        split_ifs <;> omega
    · have : n + 1 + xs.length = n + (xs.length + 1) := by omega
      rw [this]
      exact hn

/-- A run from the initial state of fewer than `2^63 - 1` steps goes the same way with the
wrapping increment of the program as with the plain increment of `step`. -/
theorem runGo_eq_run (steps : List Step) (h : (steps.length : Int) < maxInt) :
    runGo State.init steps = run State.init steps := by
  apply runGo_eq_run_of_bound steps State.init 0
  · intro e
    rw [show pending State.init.clicks e = 0 from rfl]
    exact ⟨le_refl _, le_refl _⟩
  · rw [Nat.zero_add]
    exact h

/-! ## Claims about runs -/

theorem drain_buffer (order : Shuffle Int) (now : Nat → Int) (m : CounterMap)
    (buf : List Click) :
    (drain order now m buf).clicksList = buf ++ (drain order now m []).clicksList := by
  rw [drain_clicksList, drain_clicksList, List.nil_append]

/-- C5: an iteration calls `writeToDB` not at all when the buffer is empty after the
locked loop, and exactly once, with the whole buffer as argument, when it is not.  The
buffer after the loop is the buffer before it followed by the records of this pass, and
the buffer is empty before every iteration of a run from the initial state.  An
iteration that follows another one with no request in between, whatever the outcome of
the earlier write, produces an empty batch and makes no call. -/
theorem gateway_discipline (env : TickEnv) (s : State) :
    (recordClicksIter env s).calls =
      (if tickBatch env s = [] then s.calls
       else s.calls ++
        [⟨tickBatch env s, (writeToDB env.dbOk s.table (tickBatch env s)).isSome⟩]) ∧
    tickBatch env s = s.clicksList ++ (drain env.order env.now s.clicks []).clicksList ∧
    (∀ steps, (run State.init steps).clicksList = []) ∧
    (∀ env2, tickBatch env2 (recordClicksIter env s) = [] ∧
      (recordClicksIter env2 (recordClicksIter env s)).calls = (recordClicksIter env s).calls ∧
      (recordClicksIter env2 (recordClicksIter env s)).table = (recordClicksIter env s).table) := by
  refine ⟨iter_calls env s, drain_buffer _ _ _ _, fun steps => (reach_run _ steps reach_init).2, ?_⟩
  intro env2
  have hb := tickBatch_after_iter env env2 s
  refine ⟨hb, ?_, ?_⟩
  · rw [iter_calls env2, if_pos hb]
  · rw [iter_table env2, if_pos hb]

end ClickCounter
